import Mathlib

/-!
Verification of the island-finding core of `bad_pixels.py`.

The core consists of `find_islands(image)` and its nested helper `dfs`.
The image is a list of rows of integer pixel values; the code scans the
grid in raster order, and for every not-yet-visited cell whose value is
`< 1` it runs an iterative depth-first traversal collecting the connected
component of cells of exactly the seed's value, classifying each popped
cell as perimeter or not from its four axis-aligned neighbours.

The embedding below mirrors the Python source statement by statement:
* mutable locals (`visited`, `stack`, `island`, `perimeter`) become
  explicit state records threaded through the loops;
* Python list indexing becomes a fallible lookup returning
  `Except PyErr`, since indexing a too-short row raises `IndexError`;
* the unbounded `while stack:` loop becomes a fuel-indexed iteration;
  a fuel bound sufficient for the loop to drain the stack is proved.
-/

/-- A pixel coordinate `(row, col)`.  Python works with arbitrary integer
pairs here (`nx`/`ny` can be `-1`), so coordinates are integers. -/
abbrev Cell : Type := ℤ × ℤ

/-- A grayscale image: a list of rows of integer pixel values. -/
abbrev Img : Type := List (List ℤ)

/-- The failure modes relevant to `find_islands`: a Python `IndexError`
from indexing a too-short row, and the `InvalidGrid` error that the
specification's error-handling section describes for ragged input. -/
inductive PyErr : Type
  | indexError : PyErr
  | invalidGrid : PyErr
deriving DecidableEq

/-- `len(image)`: the number of rows. -/
def rows (g : Img) : ℤ := g.length

/-- `len(image[0])`: the length of row 0.  The Python code only ever
evaluates this expression when at least one row exists. -/
def cols (g : Img) : ℤ := (g.headD []).length

/-- `image[x][y]` as the Python evaluation: an out-of-range index raises
`IndexError`.  Every occurrence of this lookup in the source is guarded
so that `x` and `y` are non-negative, so only the upper bounds matter. -/
def getCell (g : Img) (x y : ℤ) : Except PyErr ℤ :=
  if 0 ≤ x ∧ 0 ≤ y then
    match g.get? x.toNat with
    | none => .error .indexError
    | some row =>
      match row.get? y.toNat with
      | none => .error .indexError
      | some v => .ok v
  else .error .indexError

/-- Total default-valued cell lookup, used on the specification side to
state properties; it agrees with `getCell` on rectangular grids. -/
def valD (g : Img) (c : Cell) : ℤ :=
  ((((g.get? c.1.toNat).getD []).get? c.2.toNat).getD 0)

/-- `0 <= nx < len(image) and 0 <= ny < len(image[0])`: the bounds test
used both by the neighbour scan and (implicitly) by the raster scan. -/
def inBounds (g : Img) (c : Cell) : Prop :=
  0 ≤ c.1 ∧ c.1 < rows g ∧ 0 ≤ c.2 ∧ c.2 < cols g

instance (g : Img) (c : Cell) : Decidable (inBounds g c) := by
  unfold inBounds; infer_instance

/-- Rows all have the length of row 0: the grid is rectangular. -/
def Rectangular (g : Img) : Prop :=
  ∀ row ∈ g, row.length = (g.headD []).length

instance (g : Img) : Decidable (Rectangular g) := by
  unfold Rectangular; infer_instance

/-- `directions = [(-1, 0), (1, 0), (0, -1), (0, 1)]`. -/
def directions : List Cell := [(-1, 0), (1, 0), (0, -1), (0, 1)]

/-- Offset a cell by a direction: `nx, ny = cx + dx, cy + dy`. -/
def shift (c d : Cell) : Cell := (c.1 + d.1, c.2 + d.2)

/-- The four axis-aligned neighbour positions of a cell. -/
def nbrs (c : Cell) : List Cell := directions.map (shift c)

/-- One island record as produced by `find_islands`:
`{'pixels': island, 'perimeter': perimeter}`, both in append order. -/
structure Island : Type where
  pixels : List Cell
  perimeter : List Cell
deriving DecidableEq

/-- The mutable state of one `dfs` call: the image (never written), the
explicit stack, the shared `visited` set, and the `island` / `perimeter`
accumulator lists. -/
structure DfsState : Type where
  image : Img
  stack : List Cell
  visited : Finset Cell
  island : List Cell
  perimeter : List Cell
deriving DecidableEq

/-- The body of `for dx, dy in directions:` inside `dfs`, acting on the
accumulator `(is_perimeter, stack)`.  The stack is represented with its
top (Python's list end) at the head, so `stack.append` is a cons. -/
def neighborStep (g : Img) (pv : ℤ) (vis : Finset Cell) (c : Cell)
    (acc : Bool × List Cell) (d : Cell) : Except PyErr (Bool × List Cell) :=
  if inBounds g (shift c d) then
    if shift c d ∈ vis then .ok acc
    else
      getCell g (shift c d).1 (shift c d).2 >>= fun v =>
        if v ≠ pv ∨ 1 ≤ v then .ok (true, acc.2)
        else if v = pv then .ok (acc.1, shift c d :: acc.2)
        else .ok acc
  else .ok (true, acc.2)

/-- One iteration of `while stack:` in `dfs`: pop `(cx, cy)`; if already
visited do nothing more; otherwise mark it visited, append it to
`island`, process the four neighbours, and append the cell to
`perimeter` when `is_perimeter` ended up true. -/
def dfsIter (pv : ℤ) (st : DfsState) : Except PyErr DfsState :=
  match st.stack with
  | [] => .ok st
  | c :: rest =>
    if c ∈ st.visited then .ok { st with stack := rest }
    else
      List.foldlM (neighborStep st.image pv (insert c st.visited) c)
          (false, rest) directions >>= fun res =>
        .ok { st with
              stack := res.2
              visited := insert c st.visited
              island := st.island ++ [c]
              perimeter := if res.1 then st.perimeter ++ [c] else st.perimeter }

/-- The `while stack:` loop of `dfs`, indexed by fuel.  The loop itself
is unbounded in Python; `dfsLoop_drains` below proves that the fuel
`dfsFuel` suffices for the stack to drain, so the fuelled iteration is
extensionally the Python loop. -/
def dfsLoop (pv : ℤ) : ℕ → DfsState → Except PyErr DfsState
  | 0, st => .ok st
  | n + 1, st =>
    match st.stack with
    | [] => .ok st
    | _ :: _ => dfsIter pv st >>= dfsLoop pv n

/-- Fuel sufficient for any `dfs` traversal: five steps per grid cell
plus one for the initial stack entry (see `dfsLoop_drains`). -/
def dfsFuel (g : Img) : ℕ := 5 * (g.length * (g.headD []).length) + 1

/-- `dfs(x, y, visited, image, island, perimeter)`: read the seed value
`pixel_value = image[x][y]`, then run the work-list loop starting from
the stack `[(x, y)]` with empty `island` and `perimeter` accumulators. -/
def dfs (g : Img) (c : Cell) (vis : Finset Cell) : Except PyErr DfsState :=
  getCell g c.1 c.2 >>= fun pv =>
    dfsLoop pv (dfsFuel g) { image := g, stack := [c], visited := vis,
                             island := [], perimeter := [] }

/-- The state of the outer raster scan of `find_islands`: the image, the
shared `visited` set and the `islands` output list. -/
structure ScanState : Type where
  image : Img
  visited : Finset Cell
  islands : List Island
deriving DecidableEq

/-- The body of the doubly nested raster loop of `find_islands` at one
cell: `if (i, j) not in visited and image[i][j] < 1:` (short-circuit:
the lookup only happens when the cell is unvisited), then run `dfs` and
append `{'pixels': island, 'perimeter': perimeter}` if `island` is
non-empty. -/
def scanStep (st : ScanState) (c : Cell) : Except PyErr ScanState :=
  if c ∈ st.visited then .ok st
  else
    getCell st.image c.1 c.2 >>= fun v =>
      if v < 1 then
        dfs st.image c st.visited >>= fun st' =>
          .ok { image := st'.image
                visited := st'.visited
                islands :=
                  if st'.island.isEmpty then st.islands
                  else st.islands ++
                    [{ pixels := st'.island, perimeter := st'.perimeter }] }
      else .ok st

/-- The raster enumeration `for i in range(len(image)): for j in
range(len(image[0])):` flattened into a single list of cells. -/
def rasterCells (g : Img) : List Cell :=
  (List.range g.length).flatMap fun i : ℕ =>
    (List.range (g.headD []).length).map fun j : ℕ => ((i : ℤ), (j : ℤ))

/-- `find_islands(image)` down to its final scan state. -/
def findIslandsE (g : Img) : Except PyErr ScanState :=
  List.foldlM scanStep { image := g, visited := ∅, islands := [] }
    (rasterCells g)

/-- `find_islands(image)`: the returned `islands` list. -/
def find_islands (g : Img) : Except PyErr (List Island) :=
  (findIslandsE g).map ScanState.islands

example : find_islands [[0]] = .ok [{ pixels := [(0, 0)], perimeter := [(0, 0)] }] := by
  rfl

example : find_islands [] = .ok [] := by rfl

/-! ### Basic lemmas about the grid model -/

theorem ok_bind {α β : Type} (a : α) (f : α → Except PyErr β) :
    (Except.ok a >>= f) = f a := rfl

theorem error_bind {α β : Type} (e : PyErr) (f : α → Except PyErr β) :
    ((Except.error e : Except PyErr α) >>= f) = .error e := rfl

/-- On a rectangular grid, the fallible lookup at an in-bounds cell
succeeds and returns the default-valued lookup. -/
theorem getCell_eq_ok {g : Img} {c : Cell} (hg : Rectangular g)
    (hc : inBounds g c) : getCell g c.1 c.2 = .ok (valD g c) := by
  obtain ⟨h1, h2, h3, h4⟩ := hc
  have hx : c.1.toNat < g.length := by
    simp only [rows] at h2; omega
  have hrow : g.get? c.1.toNat = some (g.get ⟨c.1.toNat, hx⟩) :=
    List.get?_eq_get hx
  have hrmem : g.get ⟨c.1.toNat, hx⟩ ∈ g := List.get_mem g _ _
  have hrl : (g.get ⟨c.1.toNat, hx⟩).length = (g.headD []).length :=
    hg _ hrmem
  have hy : c.2.toNat < (g.get ⟨c.1.toNat, hx⟩).length := by
    simp only [cols] at h4; omega
  have hcell : (g.get ⟨c.1.toNat, hx⟩).get? c.2.toNat =
      some ((g.get ⟨c.1.toNat, hx⟩).get ⟨c.2.toNat, hy⟩) :=
    List.get?_eq_get hy
  simp only [getCell, valD, hrow, hcell, Option.getD_some,
    if_pos (show 0 ≤ c.1 ∧ 0 ≤ c.2 from And.intro h1 h3)]

/-- On a rectangular grid, the value of an in-bounds cell really occurs
in one of the grid's rows. -/
theorem valD_mem_row {g : Img} {c : Cell} (hg : Rectangular g)
    (hc : inBounds g c) : ∃ row ∈ g, valD g c ∈ row := by
  obtain ⟨h1, h2, h3, h4⟩ := hc
  have hx : c.1.toNat < g.length := by
    simp only [rows] at h2; omega
  have hrow : g.get? c.1.toNat = some (g.get ⟨c.1.toNat, hx⟩) :=
    List.get?_eq_get hx
  have hrmem : g.get ⟨c.1.toNat, hx⟩ ∈ g := List.get_mem g _ _
  have hrl : (g.get ⟨c.1.toNat, hx⟩).length = (g.headD []).length :=
    hg _ hrmem
  have hy : c.2.toNat < (g.get ⟨c.1.toNat, hx⟩).length := by
    simp only [cols] at h4; omega
  have hcell : (g.get ⟨c.1.toNat, hx⟩).get? c.2.toNat =
      some ((g.get ⟨c.1.toNat, hx⟩).get ⟨c.2.toNat, hy⟩) :=
    List.get?_eq_get hy
  refine ⟨g.get ⟨c.1.toNat, hx⟩, hrmem, ?_⟩
  have hv : valD g c = (g.get ⟨c.1.toNat, hx⟩).get ⟨c.2.toNat, hy⟩ := by
    simp only [valD, hrow, hcell, Option.getD_some]
  rw [hv]
  exact List.get_mem _ _ _

/-- The finite set of all in-bounds cells of a grid. -/
def allCells (g : Img) : Finset Cell :=
  (Finset.range g.length ×ˢ Finset.range (g.headD []).length).image
    fun p => ((p.1 : ℤ), (p.2 : ℤ))

theorem mem_allCells {g : Img} {c : Cell} : c ∈ allCells g ↔ inBounds g c := by
  obtain ⟨x, y⟩ := c
  simp only [allCells, Finset.mem_image, Finset.mem_product, Finset.mem_range,
    inBounds, rows, cols, Prod.exists, Prod.mk.injEq]
  constructor
  · rintro ⟨a, b, ⟨ha, hb⟩, rfl, rfl⟩
    refine ⟨by omega, by omega, by omega, by omega⟩
  · rintro ⟨h1, h2, h3, h4⟩
    exact ⟨x.toNat, y.toNat, ⟨by omega, by omega⟩, by omega, by omega⟩

theorem card_allCells (g : Img) :
    (allCells g).card = g.length * (g.headD []).length := by
  have hinj : Function.Injective (fun p : ℕ × ℕ => ((p.1 : ℤ), (p.2 : ℤ))) := by
    rintro ⟨a, b⟩ ⟨a', b'⟩ h
    simp only [Prod.mk.injEq, Nat.cast_inj] at h ⊢
    omega
  rw [allCells, Finset.card_image_of_injective _ hinj, Finset.card_product,
    Finset.card_range, Finset.card_range]

theorem nbrs_symm {c n : Cell} (h : n ∈ nbrs c) : c ∈ nbrs n := by
  obtain ⟨x, y⟩ := c
  simp only [nbrs, directions, shift, List.mem_map, List.mem_cons,
    List.not_mem_nil, or_false, Prod.exists, Prod.mk.injEq] at h ⊢
  obtain ⟨a, b, hd, rfl, rfl⟩ := h
  rcases hd with ⟨rfl, rfl⟩ | ⟨rfl, rfl⟩ | ⟨rfl, rfl⟩ | ⟨rfl, rfl⟩
  · exact ⟨1, 0, by norm_num⟩
  · exact ⟨-1, 0, by norm_num⟩
  · exact ⟨0, 1, by norm_num⟩
  · exact ⟨0, -1, by norm_num⟩

theorem not_mem_nbrs_self (c : Cell) : c ∉ nbrs c := by
  obtain ⟨x, y⟩ := c
  simp only [nbrs, directions, shift, List.mem_map, List.mem_cons,
    List.not_mem_nil, or_false, Prod.exists, Prod.mk.injEq]
  rintro ⟨a, b, hd, h1, h2⟩
  rcases hd with ⟨rfl, rfl⟩ | ⟨rfl, rfl⟩ | ⟨rfl, rfl⟩ | ⟨rfl, rfl⟩ <;> omega

/-- Raster (row-major) strict order on cells: the order in which the
outer scan of `find_islands` enumerates the grid. -/
def rlt (a b : Cell) : Prop := a.1 < b.1 ∨ (a.1 = b.1 ∧ a.2 < b.2)

instance (a b : Cell) : Decidable (rlt a b) := by unfold rlt; infer_instance

theorem rlt_irrefl (a : Cell) : ¬ rlt a a := by unfold rlt; omega

theorem rlt_asymm {a b : Cell} (h : rlt a b) : ¬ rlt b a := by
  unfold rlt at *; omega

theorem mem_rasterCells {g : Img} {c : Cell} :
    c ∈ rasterCells g ↔ inBounds g c := by
  obtain ⟨x, y⟩ := c
  simp only [rasterCells, List.mem_flatMap, List.mem_map, List.mem_range,
    inBounds, rows, cols, Prod.mk.injEq]
  constructor
  · rintro ⟨a, ha, b, hb, rfl, rfl⟩
    refine ⟨by omega, by omega, by omega, by omega⟩
  · rintro ⟨h1, h2, h3, h4⟩
    exact ⟨x.toNat, by omega, y.toNat, by omega, by omega, by omega⟩

theorem pairwise_rasterCells (g : Img) : (rasterCells g).Pairwise rlt := by
  rw [rasterCells, List.pairwise_flatMap]
  constructor
  · intro a _
    exact List.Pairwise.map _
      (fun u v h => Or.inr ⟨rfl, show (u : ℤ) < (v : ℤ) by exact_mod_cast h⟩)
      (List.pairwise_lt_range _)
  · refine List.Pairwise.imp ?_ (List.pairwise_lt_range _)
    intro a b hab u hu v hv
    simp only [List.mem_map, List.mem_range] at hu hv
    obtain ⟨j, _, rfl⟩ := hu
    obtain ⟨j', _, rfl⟩ := hv
    exact Or.inl (show (a : ℤ) < (b : ℤ) by exact_mod_cast hab)

/-- Cells of the processed raster prefix are exactly the in-bounds cells
raster-before the current scan cell (plus nothing else). -/
theorem mem_left_of_raster_split {g : Img} {l₁ l₂ : List Cell} {c p : Cell}
    (hsplit : rasterCells g = l₁ ++ c :: l₂) (hp : inBounds g p)
    (hlt : rlt p c) : p ∈ l₁ := by
  have hmem : p ∈ rasterCells g := mem_rasterCells.mpr hp
  rw [hsplit] at hmem
  rcases List.mem_append.mp hmem with h | h
  · exact h
  · exfalso
    have hpw := pairwise_rasterCells g
    rw [hsplit] at hpw
    rcases List.mem_cons.mp h with rfl | h2
    · exact rlt_irrefl _ hlt
    · exact rlt_asymm
        ((List.pairwise_cons.mp (List.pairwise_append.mp hpw).2.1).1 p h2) hlt

theorem rlt_of_mem_left {g : Img} {l₁ l₂ : List Cell} {c : Cell}
    (hsplit : rasterCells g = l₁ ++ c :: l₂) : ∀ a ∈ l₁, rlt a c := by
  have hpw := pairwise_rasterCells g
  rw [hsplit] at hpw
  intro a ha
  exact (List.pairwise_append.mp hpw).2.2 a ha c (List.mem_cons_self _ _)

/-! ### The neighbour scan of one popped cell

`perimHit` and `pushCond` phrase, as predicates on one neighbour
position, the specification's perimeter rule (§4.1 step 5) and push
rule: a neighbour witnesses "perimeter" when it is out of bounds, or in
bounds, not yet visited, and of differing value or value ≥ 1; a
neighbour is pushed when it is in bounds, unvisited and of the seed's
value (the code's `elif` branch additionally knows that value is `< 1`).
`foldNeighbors_spec` proves that the `for dx, dy in directions:` loop
computes exactly these predicates. -/

/-- One neighbour position counts as boundary evidence. -/
def perimHit (g : Img) (pv : ℤ) (vis : Finset Cell) (n : Cell) : Prop :=
  ¬ inBounds g n ∨
    (inBounds g n ∧ n ∉ vis ∧ (valD g n ≠ pv ∨ 1 ≤ valD g n))

instance (g : Img) (pv : ℤ) (vis : Finset Cell) (n : Cell) :
    Decidable (perimHit g pv vis n) := by
  unfold perimHit; infer_instance

/-- One neighbour position gets pushed onto the work-list. -/
def pushCond (g : Img) (pv : ℤ) (vis : Finset Cell) (n : Cell) : Prop :=
  inBounds g n ∧ n ∉ vis ∧ valD g n = pv ∧ valD g n < 1

instance (g : Img) (pv : ℤ) (vis : Finset Cell) (n : Cell) :
    Decidable (pushCond g pv vis n) := by
  unfold pushCond; infer_instance

/-- The popped cell has boundary evidence in some direction. -/
def hasPerim (g : Img) (pv : ℤ) (vis : Finset Cell) (c : Cell) : Prop :=
  ∃ n ∈ nbrs c, perimHit g pv vis n

instance (g : Img) (pv : ℤ) (vis : Finset Cell) (c : Cell) :
    Decidable (hasPerim g pv vis c) := by
  unfold hasPerim; infer_instance

/-- The neighbours of the popped cell that get pushed, in direction
order. -/
def pushesOf (g : Img) (pv : ℤ) (vis : Finset Cell) (c : Cell) : List Cell :=
  (nbrs c).filter fun n => decide (pushCond g pv vis n)

/-- On a rectangular grid the direction loop of `dfs` returns, without
failing, the disjunction of the boundary evidence and the pushed
neighbours (stacked in reverse direction order on top of the remaining
work-list). -/
theorem foldNeighbors_spec {g : Img} (hg : Rectangular g) (pv : ℤ)
    (vis : Finset Cell) (c : Cell) (ds : List Cell) :
    ∀ (b : Bool) (s : List Cell),
      List.foldlM (neighborStep g pv vis c) (b, s) ds =
        .ok (b || (ds.map (shift c)).any fun n => decide (perimHit g pv vis n),
          ((ds.map (shift c)).filter fun n =>
            decide (pushCond g pv vis n)).reverse ++ s) := by
  induction ds with
  | nil =>
    intro b s
    simp only [List.foldlM_nil, List.map_nil, List.any_nil, Bool.or_false,
      List.filter_nil, List.reverse_nil, List.nil_append]
    rfl
  | cons d ds ih =>
    intro b s
    by_cases hib : inBounds g (shift c d)
    · by_cases hvis : shift c d ∈ vis
      · have h1 : neighborStep g pv vis c (b, s) d = .ok (b, s) := by
          simp [neighborStep, hib, hvis]
        have hph : ¬ perimHit g pv vis (shift c d) := by
          simp [perimHit, hib, hvis]
        have hpc : ¬ pushCond g pv vis (shift c d) := by
          simp [pushCond, hvis]
        rw [List.foldlM_cons, h1, ok_bind, ih]
        simp [hph, hpc]
      · have hget := getCell_eq_ok hg hib
        by_cases hval : valD g (shift c d) ≠ pv ∨ 1 ≤ valD g (shift c d)
        · have h1 : neighborStep g pv vis c (b, s) d = .ok (true, s) := by
            simp only [neighborStep, if_pos hib, if_neg hvis, hget, ok_bind]
            rw [if_pos hval]
          have hph : perimHit g pv vis (shift c d) :=
            Or.inr ⟨hib, hvis, hval⟩
          have hpc : ¬ pushCond g pv vis (shift c d) := by
            rcases hval with h | h <;> simp [pushCond] <;> intro _ _ h2 <;> omega
          rw [List.foldlM_cons, h1, ok_bind, ih]
          simp [hph, hpc]
        · have hv2 : valD g (shift c d) = pv ∧ valD g (shift c d) < 1 := by
            push_neg at hval; omega
          have h1 : neighborStep g pv vis c (b, s) d =
              .ok (b, shift c d :: s) := by
            simp only [neighborStep, if_pos hib, if_neg hvis, hget, ok_bind]
            rw [if_neg hval, if_pos hv2.1]
          have hph : ¬ perimHit g pv vis (shift c d) := by
            rintro (h | ⟨_, _, h2⟩)
            · exact h hib
            · exact hval h2
          have hpc : pushCond g pv vis (shift c d) :=
            ⟨hib, hvis, hv2.1, hv2.2⟩
          rw [List.foldlM_cons, h1, ok_bind, ih]
          simp [hph, hpc]
    · have h1 : neighborStep g pv vis c (b, s) d = .ok (true, s) := by
        simp [neighborStep, hib]
      have hph : perimHit g pv vis (shift c d) := Or.inl hib
      have hpc : ¬ pushCond g pv vis (shift c d) := by
        simp [pushCond, hib]
      rw [List.foldlM_cons, h1, ok_bind, ih]
      simp [hph, hpc]

/-! ### One iteration of the work-list loop -/

theorem any_eq_decide_hasPerim (g : Img) (pv : ℤ) (vis : Finset Cell)
    (c : Cell) :
    ((nbrs c).any fun n => decide (perimHit g pv vis n)) =
      decide (hasPerim g pv vis c) := by
  rw [Bool.eq_iff_iff]
  simp [hasPerim]

theorem dfsIter_nil {pv : ℤ} {st : DfsState} (h : st.stack = []) :
    dfsIter pv st = .ok st := by
  unfold dfsIter; rw [h]

theorem dfsIter_visited {pv : ℤ} {st : DfsState} {c : Cell}
    {rest : List Cell} (h : st.stack = c :: rest) (hv : c ∈ st.visited) :
    dfsIter pv st = .ok { st with stack := rest } := by
  simp [dfsIter, h, hv]

theorem dfsIter_new {pv : ℤ} {st : DfsState} {c : Cell} {rest : List Cell}
    (hg : Rectangular st.image) (h : st.stack = c :: rest)
    (hv : c ∉ st.visited) :
    dfsIter pv st = .ok { st with
      stack := (pushesOf st.image pv (insert c st.visited) c).reverse ++ rest
      visited := insert c st.visited
      island := st.island ++ [c]
      perimeter := if hasPerim st.image pv (insert c st.visited) c
                   then st.perimeter ++ [c] else st.perimeter } := by
  simp only [dfsIter, h, hv, if_neg, ite_false, decide_False]
  rw [foldNeighbors_spec hg pv (insert c st.visited) c directions false rest,
    ok_bind]
  simp only [Bool.false_or]
  rw [show (directions.map (shift c)) = nbrs c from rfl,
    any_eq_decide_hasPerim]
  simp [pushesOf, decide_eq_true_eq]

/-! ### Termination of the work-list loop -/

theorem dfsLoop_zero (pv : ℤ) (st : DfsState) : dfsLoop pv 0 st = .ok st := rfl

theorem dfsLoop_succ_nil {pv : ℤ} {n : ℕ} {st : DfsState}
    (h : st.stack = []) : dfsLoop pv (n + 1) st = .ok st := by
  simp [dfsLoop, h]

theorem dfsLoop_succ_cons {pv : ℤ} {n : ℕ} {st : DfsState} {c : Cell}
    {rest : List Cell} (h : st.stack = c :: rest) :
    dfsLoop pv (n + 1) st = dfsIter pv st >>= dfsLoop pv n := by
  simp [dfsLoop, h]

theorem dfsLoop_of_nil {pv : ℤ} {st : DfsState} (h : st.stack = []) :
    ∀ n, dfsLoop pv n st = .ok st := by
  intro n
  cases n with
  | zero => rfl
  | succ n => exact dfsLoop_succ_nil h

theorem mem_pushesOf {g : Img} {pv : ℤ} {vis : Finset Cell} {c x : Cell} :
    x ∈ pushesOf g pv vis c ↔ x ∈ nbrs c ∧ pushCond g pv vis x := by
  simp [pushesOf, List.mem_filter]

theorem pushesOf_length_le (g : Img) (pv : ℤ) (vis : Finset Cell)
    (c : Cell) : (pushesOf g pv vis c).length ≤ 4 := by
  have h := List.length_filter_le
    (fun n => decide (pushCond g pv vis n)) (nbrs c)
  have h4 : (nbrs c).length = 4 := rfl
  calc (pushesOf g pv vis c).length ≤ (nbrs c).length := h
  _ = 4 := h4

/-- Decrease of the unvisited-cell count when a fresh in-bounds cell is
marked visited. -/
theorem card_sdiff_insert_lt {g : Img} {vis : Finset Cell} {c : Cell}
    (hc : c ∈ allCells g) (hv : c ∉ vis) :
    (allCells g \ insert c vis).card < (allCells g \ vis).card := by
  have hsub : allCells g \ insert c vis ⊆ allCells g \ vis := by
    intro x hx
    simp only [Finset.mem_sdiff, Finset.mem_insert] at hx ⊢
    exact ⟨hx.1, fun h => hx.2 (Or.inr h)⟩
  have hc2 : c ∈ allCells g \ vis := Finset.mem_sdiff.mpr ⟨hc, hv⟩
  have hc3 : c ∉ allCells g \ insert c vis := by
    simp [Finset.mem_sdiff]
  exact Finset.card_lt_card
    ((Finset.ssubset_iff_of_subset hsub).mpr ⟨c, hc2, hc3⟩)

/-- Each loop iteration pops one entry and pushes at most four entries,
but pays for the pushes by newly visiting an in-bounds cell: the
combined measure strictly decreases. -/
def dfsMeasure (st : DfsState) : ℕ :=
  5 * ((allCells st.image) \ st.visited).card + st.stack.length

theorem dfsIter_light {pv : ℤ} {st : DfsState} {c : Cell} {rest : List Cell}
    (hg : Rectangular st.image)
    (hstk : ∀ x ∈ st.stack, inBounds st.image x) (h : st.stack = c :: rest) :
    ∃ st', dfsIter pv st = .ok st' ∧ st'.image = st.image ∧
      st.visited ⊆ st'.visited ∧
      (∀ x ∈ st'.stack, inBounds st.image x) ∧
      dfsMeasure st' < dfsMeasure st := by
  by_cases hv : c ∈ st.visited
  · refine ⟨_, dfsIter_visited h hv, rfl, Finset.Subset.refl _, ?_, ?_⟩
    · intro x hx
      exact hstk x (h ▸ List.mem_cons_of_mem _ hx)
    · simp [dfsMeasure, h]
  · refine ⟨_, dfsIter_new hg h hv, rfl, Finset.subset_insert _ _, ?_, ?_⟩
    · intro x hx
      simp only at hx
      rcases List.mem_append.mp hx with hx | hx
      · exact (mem_pushesOf.mp (List.mem_reverse.mp hx)).2.1
      · exact hstk x (h ▸ List.mem_cons_of_mem _ hx)
    · have hc : c ∈ allCells st.image :=
        mem_allCells.mpr (hstk c (h ▸ List.mem_cons_self _ _))
      have hlt := card_sdiff_insert_lt hc hv
      have hlen := pushesOf_length_le st.image pv (insert c st.visited) c
      simp only [dfsMeasure, h, List.length_append, List.length_reverse,
        List.length_cons]
      omega

theorem dfsLoop_drains {pv : ℤ} :
    ∀ (n : ℕ) (st : DfsState), Rectangular st.image →
      (∀ x ∈ st.stack, inBounds st.image x) → dfsMeasure st ≤ n →
      ∃ st', dfsLoop pv n st = .ok st' ∧ st'.stack = [] ∧
        st'.image = st.image := by
  intro n
  induction n with
  | zero =>
    intro st _ _ hm
    have hnil : st.stack = [] := by
      have : st.stack.length = 0 := by
        simp only [dfsMeasure] at hm; omega
      exact List.length_eq_zero.mp this
    exact ⟨st, dfsLoop_zero pv st, hnil, rfl⟩
  | succ n ih =>
    intro st hg hstk hm
    cases hstack : st.stack with
    | nil => exact ⟨st, dfsLoop_succ_nil hstack, hstack, rfl⟩
    | cons c rest =>
      obtain ⟨st1, hiter, himg, _, hstk1, hlt⟩ :=
        dfsIter_light hg hstk hstack
      rw [dfsLoop_succ_cons hstack, hiter, ok_bind]
      obtain ⟨st', hrun, hnil, himg'⟩ := ih st1 (himg ▸ hg)
        (by intro x hx; exact himg ▸ hstk1 x hx)
        (by omega)
      exact ⟨st', hrun, hnil, by rw [himg', himg]⟩

theorem dfsLoop_mono {pv : ℤ} :
    ∀ {n : ℕ} {st st' : DfsState}, dfsLoop pv n st = .ok st' →
      st'.stack = [] → ∀ {m : ℕ}, n ≤ m → dfsLoop pv m st = .ok st' := by
  intro n
  induction n with
  | zero =>
    intro st st' h hs m _
    rw [dfsLoop_zero] at h
    injection h with h2
    subst h2
    exact dfsLoop_of_nil hs m
  | succ n ih =>
    intro st st' h hs m hm
    cases hstack : st.stack with
    | nil =>
      rw [dfsLoop_succ_nil hstack] at h
      injection h with h2
      subst h2
      exact dfsLoop_of_nil hstack m
    | cons c rest =>
      rw [dfsLoop_succ_cons hstack] at h
      cases hiter : dfsIter pv st with
      | error e => rw [hiter, error_bind] at h; cases h
      | ok st1 =>
        rw [hiter, ok_bind] at h
        obtain ⟨m', rfl⟩ : ∃ m', m = m' + 1 := ⟨m - 1, by omega⟩
        rw [dfsLoop_succ_cons hstack, hiter, ok_bind]
        exact ih h hs (by omega)

/-! ### Reachability along equal-valued foreground cells -/

/-- One traversal step avoiding an ambient visited set `v0`: move to a
4-neighbour that is in bounds, carries the seed value and is not in
`v0`. -/
def Rstep (g : Img) (pv : ℤ) (v0 : Finset Cell) (a b : Cell) : Prop :=
  b ∈ nbrs a ∧ inBounds g b ∧ valD g b = pv ∧ b ∉ v0

/-- Reachability by `Rstep` steps. -/
def Rreach (g : Img) (pv : ℤ) (v0 : Finset Cell) : Cell → Cell → Prop :=
  Relation.ReflTransGen (Rstep g pv v0)

/-- One unrestricted traversal step: move to a 4-neighbour that is in
bounds and carries the value `pv`. -/
def Ustep (g : Img) (pv : ℤ) (a b : Cell) : Prop :=
  b ∈ nbrs a ∧ inBounds g b ∧ valD g b = pv

/-- Reachability by `Ustep` steps: connectivity through 4-adjacent
in-bounds cells of value `pv`. -/
def UReach (g : Img) (pv : ℤ) : Cell → Cell → Prop :=
  Relation.ReflTransGen (Ustep g pv)

theorem Rreach.to_ureach {g : Img} {pv : ℤ} {v0 : Finset Cell} {a b : Cell}
    (h : Rreach g pv v0 a b) : UReach g pv a b :=
  Relation.ReflTransGen.mono (fun _ _ hs => ⟨hs.1, hs.2.1, hs.2.2.1⟩) h

/-! ### The loop invariant of one `dfs` traversal -/

/-- Invariant of the `dfs` work-list loop, relative to the grid `g`, the
seed value `pv`, the visited set `v0` as it was when `dfs` was entered,
and the seed cell. -/
structure DfsInv (g : Img) (pv : ℤ) (v0 : Finset Cell) (seed : Cell)
    (st : DfsState) : Prop where
  himg : st.image = g
  hsub : v0 ⊆ st.visited
  hstk : ∀ x ∈ st.stack, inBounds g x ∧ valD g x = pv ∧ Rreach g pv v0 seed x
  hnodup : st.island.Nodup
  hisland : ∀ x, x ∈ st.island ↔ x ∈ st.visited ∧ x ∉ v0
  hvals : ∀ x ∈ st.island, inBounds g x ∧ valD g x = pv ∧ Rreach g pv v0 seed x
  hclosed : ∀ x ∈ st.island, ∀ n ∈ nbrs x, inBounds g n → valD g n = pv →
    n ∈ st.visited ∨ n ∈ st.stack
  hperim : ∀ x ∈ st.perimeter, x ∈ st.island
  hhead : st.island.head? = some seed ∨
    (st.island = [] ∧ st.stack = [seed] ∧ st.visited = v0 ∧ st.perimeter = [])
  hseed : seed ∈ st.visited ∨ seed ∈ st.stack

theorem dfsIter_inv {g : Img} {pv : ℤ} {v0 : Finset Cell} {seed : Cell}
    {st : DfsState} (hg : Rectangular g) (hpv : pv < 1)
    (hs0 : seed ∉ v0) (hinv : DfsInv g pv v0 seed st)
    {c : Cell} {rest : List Cell} (h : st.stack = c :: rest) :
    ∃ st', dfsIter pv st = .ok st' ∧ DfsInv g pv v0 seed st' ∧
      dfsMeasure st' < dfsMeasure st := by
  obtain ⟨img, stk, vis, isl, per⟩ := st
  have himg : g = img := hinv.himg.symm
  subst himg
  dsimp only at h
  subst h
  by_cases hv : c ∈ vis
  · refine ⟨_, dfsIter_visited rfl hv,
      ⟨rfl, hinv.hsub, ?_, hinv.hnodup, hinv.hisland, hinv.hvals, ?_,
        hinv.hperim, ?_, ?_⟩, ?_⟩
    · intro x hx
      exact hinv.hstk x (List.mem_cons_of_mem _ hx)
    · intro x hx n hn hb hvl
      rcases hinv.hclosed x hx n hn hb hvl with hV | hS
      · exact Or.inl hV
      · rcases List.mem_cons.mp hS with rfl | hS2
        · exact Or.inl hv
        · exact Or.inr hS2
    · rcases hinv.hhead with hh | ⟨_, hstk0, hvis0, _⟩
      · exact Or.inl hh
      · exfalso
        dsimp only at hstk0 hvis0
        have e1 : c = seed := by injection hstk0
        rw [e1, hvis0] at hv
        exact hs0 hv
    · rcases hinv.hseed with hV | hS
      · exact Or.inl hV
      · rcases List.mem_cons.mp hS with rfl | h2
        · exact Or.inl hv
        · exact Or.inr h2
    · simp only [dfsMeasure, List.length_cons]
      omega
  · have hcb : inBounds g c := (hinv.hstk c (List.mem_cons_self _ _)).1
    have hcv : valD g c = pv := (hinv.hstk c (List.mem_cons_self _ _)).2.1
    have hcr : Rreach g pv v0 seed c :=
      (hinv.hstk c (List.mem_cons_self _ _)).2.2
    have hc0 : c ∉ v0 := fun hx => hv (hinv.hsub hx)
    have hcisl : c ∉ isl := fun hx => hv ((hinv.hisland c).mp hx).1
    refine ⟨_, @dfsIter_new pv ⟨g, c :: rest, vis, isl, per⟩ c rest hg rfl hv,
      ⟨rfl, ?_, ?_, ?_, ?_, ?_, ?_, ?_, ?_, ?_⟩, ?_⟩
    · exact fun x hx => Finset.mem_insert_of_mem (hinv.hsub hx)
    · intro x hx
      dsimp only at hx
      rcases List.mem_append.mp hx with hx | hx
      · obtain ⟨hxn, hpc⟩ := mem_pushesOf.mp (List.mem_reverse.mp hx)
        refine ⟨hpc.1, hpc.2.2.1, Relation.ReflTransGen.tail hcr ?_⟩
        exact ⟨hxn, hpc.1, hpc.2.2.1,
          fun hx0 => hpc.2.1 (Finset.mem_insert_of_mem (hinv.hsub hx0))⟩
      · exact hinv.hstk x (List.mem_cons_of_mem _ hx)
    · dsimp only
      rw [List.nodup_append]
      refine ⟨hinv.hnodup, List.nodup_singleton _, ?_⟩
      intro a ha hb
      rw [List.mem_singleton] at hb
      subst hb
      exact hcisl ha
    · intro x
      dsimp only
      rw [List.mem_append, List.mem_singleton, Finset.mem_insert]
      constructor
      · rintro (hx | rfl)
        · obtain ⟨h1, h2⟩ := (hinv.hisland x).mp hx
          exact ⟨Or.inr h1, h2⟩
        · exact ⟨Or.inl rfl, hc0⟩
      · rintro ⟨hx | hx, h0⟩
        · exact Or.inr hx
        · exact Or.inl ((hinv.hisland x).mpr ⟨hx, h0⟩)
    · intro x hx
      dsimp only at hx
      rcases List.mem_append.mp hx with hx | hx
      · exact hinv.hvals x hx
      · rw [List.mem_singleton] at hx
        subst hx
        exact ⟨hcb, hcv, hcr⟩
    · intro x hx n hn hb hvl
      dsimp only at hx ⊢
      rcases List.mem_append.mp hx with hx | hx
      · rcases hinv.hclosed x hx n hn hb hvl with hV | hS
        · exact Or.inl (Finset.mem_insert_of_mem hV)
        · rcases List.mem_cons.mp hS with rfl | hS2
          · exact Or.inl (Finset.mem_insert_self _ _)
          · exact Or.inr (List.mem_append_right _ hS2)
      · rw [List.mem_singleton] at hx
        subst hx
        by_cases hni : n ∈ insert x vis
        · exact Or.inl hni
        · refine Or.inr (List.mem_append_left _ ?_)
          rw [List.mem_reverse, mem_pushesOf]
          exact ⟨hn, hb, hni, hvl, hvl ▸ hpv⟩
    · intro x hx
      dsimp only at hx ⊢
      by_cases hcond : hasPerim g pv (insert c vis) c
      · rw [if_pos hcond] at hx
        rcases List.mem_append.mp hx with hx | hx
        · exact List.mem_append_left _ (hinv.hperim x hx)
        · exact List.mem_append_right _ hx
      · rw [if_neg hcond] at hx
        exact List.mem_append_left _ (hinv.hperim x hx)
    · dsimp only
      rcases hinv.hhead with hh | ⟨hisl0, hstk0, _, _⟩
      · left
        dsimp only at hh
        cases isl with
        | nil => simp at hh
        | cons a t => simpa using hh
      · left
        dsimp only at hisl0 hstk0
        have e1 : c = seed := by injection hstk0
        subst hisl0
        simp [e1]
    · rcases hinv.hseed with hV | hS
      · exact Or.inl (Finset.mem_insert_of_mem hV)
      · rcases List.mem_cons.mp hS with rfl | h2
        · exact Or.inl (Finset.mem_insert_self _ _)
        · exact Or.inr (List.mem_append_right _ h2)
    · have hc : c ∈ allCells g := mem_allCells.mpr hcb
      have hlt := card_sdiff_insert_lt hc hv
      have hlen := pushesOf_length_le g pv (insert c vis) c
      simp only [dfsMeasure, List.length_append, List.length_reverse,
        List.length_cons]
      omega

theorem dfsLoop_inv {g : Img} {pv : ℤ} {v0 : Finset Cell} {seed : Cell}
    (hg : Rectangular g) (hpv : pv < 1) (hs0 : seed ∉ v0) :
    ∀ (n : ℕ) (st : DfsState), DfsInv g pv v0 seed st → dfsMeasure st ≤ n →
      ∃ st', dfsLoop pv n st = .ok st' ∧ DfsInv g pv v0 seed st' ∧
        st'.stack = [] := by
  intro n
  induction n with
  | zero =>
    intro st hinv hm
    have hnil : st.stack = [] := by
      have : st.stack.length = 0 := by simp only [dfsMeasure] at hm; omega
      exact List.length_eq_zero.mp this
    exact ⟨st, dfsLoop_zero pv st, hinv, hnil⟩
  | succ n ih =>
    intro st hinv hm
    cases hstack : st.stack with
    | nil => exact ⟨st, dfsLoop_succ_nil hstack, hinv, hstack⟩
    | cons c rest =>
      obtain ⟨st1, hiter, hinv1, hlt⟩ := dfsIter_inv hg hpv hs0 hinv hstack
      rw [dfsLoop_succ_cons hstack, hiter, ok_bind]
      exact ih st1 hinv1 (by omega)

theorem dfsInv_init {g : Img} {pv : ℤ} {v0 : Finset Cell} {seed : Cell}
    (hib : inBounds g seed) (hval : valD g seed = pv) (hs0 : seed ∉ v0) :
    DfsInv g pv v0 seed ⟨g, [seed], v0, [], []⟩ := by
  refine ⟨rfl, Finset.Subset.refl _, ?_, List.nodup_nil, ?_, ?_, ?_, ?_, ?_, ?_⟩
  · intro x hx
    rw [List.mem_singleton] at hx
    subst hx
    exact ⟨hib, hval, Relation.ReflTransGen.refl⟩
  · intro x
    simp only [List.not_mem_nil, false_iff]
    rintro ⟨h1, h2⟩
    exact h2 h1
  · intro x hx
    exact absurd hx (List.not_mem_nil x)
  · intro x hx
    exact absurd hx (List.not_mem_nil x)
  · intro x hx
    exact absurd hx (List.not_mem_nil x)
  · exact Or.inr ⟨rfl, rfl, rfl, rfl⟩
  · exact Or.inr (List.mem_singleton.mpr rfl)

theorem dfsMeasure_init_le (g : Img) (v0 : Finset Cell) (seed : Cell) :
    dfsMeasure ⟨g, [seed], v0, [], []⟩ ≤ dfsFuel g := by
  have h1 : (allCells g \ v0).card ≤ (allCells g).card :=
    Finset.card_le_card Finset.sdiff_subset
  have h2 := card_allCells g
  simp only [dfsMeasure, dfsFuel, List.length_singleton]
  omega

/-- Full characterisation of one `dfs` call on a rectangular grid from
an unvisited foreground seed: it returns with the stack drained, the
island is the set of cells reachable from the seed through 4-adjacent
cells of the seed's value avoiding the previously visited set, listed
without duplicates and starting at the seed, the visited set grows by
exactly the island, the perimeter list is a sub(multi)set of the island,
and the island is adjacency-closed into the final visited set. -/
theorem dfs_spec {g : Img} {seed : Cell} {v0 : Finset Cell}
    (hg : Rectangular g) (hib : inBounds g seed)
    (hfg : valD g seed < 1) (h0 : seed ∉ v0) :
    ∃ st', dfs g seed v0 = .ok st' ∧
      st'.image = g ∧ st'.stack = [] ∧
      st'.island.Nodup ∧ st'.island.head? = some seed ∧
      (∀ x, x ∈ st'.visited ↔ x ∈ v0 ∨ x ∈ st'.island) ∧
      (∀ x, x ∈ st'.island ↔ Rreach g (valD g seed) v0 seed x) ∧
      (∀ x ∈ st'.island, inBounds g x ∧ valD g x = valD g seed) ∧
      (∀ x ∈ st'.perimeter, x ∈ st'.island) ∧
      (∀ x ∈ st'.island, ∀ n ∈ nbrs x, inBounds g n →
        valD g n = valD g seed → n ∈ st'.visited) := by
  have hget := getCell_eq_ok hg hib
  obtain ⟨st', hrun, hinv', hnil⟩ := dfsLoop_inv hg hfg h0 (dfsFuel g)
    ⟨g, [seed], v0, [], []⟩ (dfsInv_init hib rfl h0)
    (dfsMeasure_init_le g v0 seed)
  refine ⟨st', ?_, hinv'.himg, hnil, hinv'.hnodup, ?_, ?_, ?_, ?_,
    hinv'.hperim, ?_⟩
  · unfold dfs
    rw [hget, ok_bind]
    exact hrun
  · rcases hinv'.hhead with hh | ⟨_, hstk0, _, _⟩
    · exact hh
    · rw [hnil] at hstk0
      cases hstk0
  · intro x
    constructor
    · intro hx
      by_cases h0x : x ∈ v0
      · exact Or.inl h0x
      · exact Or.inr ((hinv'.hisland x).mpr ⟨hx, h0x⟩)
    · rintro (hx | hx)
      · exact hinv'.hsub hx
      · exact ((hinv'.hisland x).mp hx).1
  · intro x
    constructor
    · intro hx
      exact (hinv'.hvals x hx).2.2
    · intro hr
      have hseedisl : seed ∈ st'.island := by
        rcases hinv'.hseed with hV | hS
        · exact (hinv'.hisland seed).mpr ⟨hV, h0⟩
        · rw [hnil] at hS
          cases hS
      induction hr with
      | refl => exact hseedisl
      | tail hab hbc ihab =>
        obtain ⟨hn, hb2, hv2, h02⟩ := hbc
        rcases hinv'.hclosed _ ihab _ hn hb2 hv2 with hV | hS
        · exact (hinv'.hisland _).mpr ⟨hV, h02⟩
        · rw [hnil] at hS
          cases hS
  · intro x hx
    exact ⟨(hinv'.hvals x hx).1, (hinv'.hvals x hx).2.1⟩
  · intro x hx n hn hb hvl
    rcases hinv'.hclosed x hx n hn hb hvl with hV | hS
    · exact hV
    · rw [hnil] at hS
      cases hS

/-! ### The outer raster scan invariant -/

/-- The seed (discovery) cell of a returned island: the first entry of
its pixel list, which is the cell the raster scan started the traversal
from. -/
def seedOf (I : Island) : Cell := I.pixels.headD (0, 0)

theorem seedOf_eq {I : Island} {s : Cell} (h : I.pixels.head? = some s) :
    seedOf I = s := by
  unfold seedOf
  cases hp : I.pixels with
  | nil => rw [hp] at h; cases h
  | cons a t =>
    rw [hp] at h
    injection h with h2

theorem rreach_not_mem {g : Img} {pv : ℤ} {v0 : Finset Cell} {a b : Cell}
    (h : Rreach g pv v0 a b) (ha : a ∉ v0) : b ∉ v0 := by
  rcases Relation.ReflTransGen.cases_tail h with heq | ⟨m, _, hstep⟩
  · rw [heq]; exact ha
  · exact hstep.2.2.2

/-- The structural facts holding of every island in the output list. -/
structure IslandGood (g : Img) (I : Island) : Prop where
  hne : I.pixels ≠ []
  hnodup : I.pixels.Nodup
  hperim : ∀ x ∈ I.perimeter, x ∈ I.pixels
  hhead : I.pixels.head? = some (seedOf I)
  hvals : ∀ x ∈ I.pixels, inBounds g x ∧ valD g x = valD g (seedOf I) ∧
    valD g x < 1
  hconn : ∀ x ∈ I.pixels, UReach g (valD g (seedOf I)) (seedOf I) x
  hclosed : ∀ x ∈ I.pixels, ∀ n ∈ nbrs x, inBounds g n →
    valD g n = valD g x → n ∈ I.pixels
  hmin : ∀ x ∈ I.pixels, ¬ rlt x (seedOf I)

/-- Invariant of the raster scan of `find_islands` after the cells of
`processed` have been handled. -/
structure ScanInv (g : Img) (processed : List Cell) (st : ScanState) :
    Prop where
  himg : st.image = g
  hgood : ∀ I ∈ st.islands, IslandGood g I
  hdisj : st.islands.Pairwise fun I J => ∀ x ∈ I.pixels, x ∉ J.pixels
  hvis : ∀ x, x ∈ st.visited ↔ ∃ I ∈ st.islands, x ∈ I.pixels
  hvisv : ∀ x ∈ st.visited, inBounds g x ∧ valD g x < 1
  hclosed : ∀ x ∈ st.visited, ∀ n ∈ nbrs x, inBounds g n →
    valD g n = valD g x → n ∈ st.visited
  hcover : ∀ c ∈ processed, inBounds g c → valD g c < 1 → c ∈ st.visited
  hseeds : ∀ I ∈ st.islands, seedOf I ∈ processed
  horder : st.islands.Pairwise fun I J => rlt (seedOf I) (seedOf J)

/-- Skipping a cell (already visited, or not foreground) preserves the
invariant. -/
theorem ScanInv.extend {g : Img} {l1 : List Cell} {c : Cell}
    {st : ScanState} (hinv : ScanInv g l1 st)
    (hc : valD g c < 1 → c ∈ st.visited) : ScanInv g (l1 ++ [c]) st := by
  refine ⟨hinv.himg, hinv.hgood, hinv.hdisj, hinv.hvis, hinv.hvisv,
    hinv.hclosed, ?_, ?_, hinv.horder⟩
  · intro x hx hbx hvx
    rcases List.mem_append.mp hx with hx | hx
    · exact hinv.hcover x hx hbx hvx
    · rw [List.mem_singleton] at hx
      subst hx
      exact hc hvx
  · intro I hI
    exact List.mem_append_left _ (hinv.hseeds I hI)

/-- One step of the raster scan preserves the scan invariant (and never
fails) on a rectangular grid. -/
theorem scanStep_inv {g : Img} {l1 l2 : List Cell} {c : Cell}
    {st : ScanState} (hg : Rectangular g)
    (hsplit : rasterCells g = l1 ++ c :: l2) (hinv : ScanInv g l1 st) :
    ∃ st', scanStep st c = .ok st' ∧ ScanInv g (l1 ++ [c]) st' := by
  obtain ⟨img, vis, isls⟩ := st
  have himg : g = img := hinv.himg.symm
  subst himg
  have hcb : inBounds g c := by
    have : c ∈ rasterCells g := by
      rw [hsplit]
      exact List.mem_append_right _ (List.mem_cons_self _ _)
    exact mem_rasterCells.mp this
  by_cases hv : c ∈ vis
  · refine ⟨_, ?_, hinv.extend fun _ => hv⟩
    unfold scanStep
    rw [if_pos hv]
  · have hget := getCell_eq_ok hg hcb
    by_cases hfg : valD g c < 1
    · obtain ⟨st_d, hdfs, himg_d, hnil, hnd, hhead, hvisit, hisl_r,
        hvals_d, hper_d, hcl_d⟩ := dfs_spec hg hcb hfg hv
      have hne : st_d.island ≠ [] := by
        intro h
        rw [h] at hhead
        cases hhead
      have hie : st_d.island.isEmpty = false := by
        cases hI : st_d.island with
        | nil => exact absurd hI hne
        | cons a t => rfl
      have hnotvis : ∀ x ∈ st_d.island, x ∉ vis := fun x hx =>
        rreach_not_mem ((hisl_r x).mp hx) hv
      have hcisl : c ∈ st_d.island :=
        (hisl_r c).mpr Relation.ReflTransGen.refl
      refine ⟨⟨st_d.image, st_d.visited,
        isls ++ [⟨st_d.island, st_d.perimeter⟩]⟩, ?_, ?_⟩
      · unfold scanStep
        rw [if_neg hv, hget, ok_bind, if_pos hfg, hdfs, ok_bind,
          if_neg (by rw [hie]; exact Bool.false_ne_true)]
      · have hseedc : seedOf ⟨st_d.island, st_d.perimeter⟩ = c :=
          seedOf_eq hhead
        have hgoodnew : IslandGood g ⟨st_d.island, st_d.perimeter⟩ := by
          refine ⟨hne, hnd, hper_d, ?_, ?_, ?_, ?_, ?_⟩
          · rw [hseedc]
            exact hhead
          · intro x hx
            rw [hseedc]
            exact ⟨(hvals_d x hx).1, (hvals_d x hx).2,
              by rw [(hvals_d x hx).2]; exact hfg⟩
          · intro x hx
            rw [hseedc]
            exact Rreach.to_ureach ((hisl_r x).mp hx)
          · intro x hx n hn hb hvl
            have hvx : valD g x = valD g c := (hvals_d x hx).2
            have hvn : valD g n = valD g c := by rw [hvl, hvx]
            rcases (hvisit n).mp (hcl_d x hx n hn hb hvn) with hnvis | hnisl
            · exfalso
              have hxvis : x ∈ vis :=
                hinv.hclosed n hnvis x (nbrs_symm hn) (hvals_d x hx).1
                  (by rw [hvx, hvn])
              exact hnotvis x hx hxvis
            · exact hnisl
          · intro x hx hlt
            rw [hseedc] at hlt
            have hxl1 : x ∈ l1 :=
              mem_left_of_raster_split hsplit (hvals_d x hx).1 hlt
            have hxvis : x ∈ vis := hinv.hcover x hxl1 (hvals_d x hx).1
              (by rw [(hvals_d x hx).2]; exact hfg)
            exact hnotvis x hx hxvis
        refine ⟨himg_d, ?_, ?_, ?_, ?_, ?_, ?_, ?_, ?_⟩
        · intro I hI
          rcases List.mem_append.mp hI with hI | hI
          · exact hinv.hgood I hI
          · rw [List.mem_singleton] at hI
            subst hI
            exact hgoodnew
        · rw [List.pairwise_append]
          refine ⟨hinv.hdisj, by simp, ?_⟩
          intro I hI J hJ x hxI
          rw [List.mem_singleton] at hJ
          subst hJ
          intro hxJ
          exact hnotvis x hxJ ((hinv.hvis x).mpr ⟨I, hI, hxI⟩)
        · intro x
          rw [hvisit x]
          constructor
          · rintro (hx | hx)
            · obtain ⟨I, hI, hxI⟩ := (hinv.hvis x).mp hx
              exact ⟨I, List.mem_append_left _ hI, hxI⟩
            · exact ⟨⟨st_d.island, st_d.perimeter⟩,
                List.mem_append_right _ (List.mem_singleton_self _), hx⟩
          · rintro ⟨I, hI, hxI⟩
            rcases List.mem_append.mp hI with hI | hI
            · exact Or.inl ((hinv.hvis x).mpr ⟨I, hI, hxI⟩)
            · rw [List.mem_singleton] at hI
              subst hI
              exact Or.inr hxI
        · intro x hx
          rcases (hvisit x).mp hx with hxvis | hxisl
          · exact hinv.hvisv x hxvis
          · exact ⟨(hvals_d x hxisl).1,
              by rw [(hvals_d x hxisl).2]; exact hfg⟩
        · intro x hx n hn hb hvl
          rcases (hvisit x).mp hx with hxvis | hxisl
          · exact (hvisit n).mpr (Or.inl (hinv.hclosed x hxvis n hn hb hvl))
          · have hvx : valD g x = valD g c := (hvals_d x hxisl).2
            exact hcl_d x hxisl n hn hb (by rw [hvl, hvx])
        · intro x hx hbx hvlt
          rcases List.mem_append.mp hx with hx | hx
          · exact (hvisit x).mpr (Or.inl (hinv.hcover x hx hbx hvlt))
          · rw [List.mem_singleton] at hx
            subst hx
            exact (hvisit x).mpr (Or.inr hcisl)
        · intro I hI
          rcases List.mem_append.mp hI with hI | hI
          · exact List.mem_append_left _ (hinv.hseeds I hI)
          · rw [List.mem_singleton] at hI
            subst hI
            rw [hseedc]
            exact List.mem_append_right _ (List.mem_singleton_self _)
        · rw [List.pairwise_append]
          refine ⟨hinv.horder, by simp, ?_⟩
          intro I hI J hJ
          rw [List.mem_singleton] at hJ
          subst hJ
          rw [hseedc]
          exact rlt_of_mem_left hsplit _ (hinv.hseeds I hI)
    · refine ⟨_, ?_, hinv.extend fun h => absurd h hfg⟩
      unfold scanStep
      rw [if_neg hv, hget, ok_bind, if_neg hfg]

theorem scanInv_init (g : Img) : ScanInv g [] ⟨g, ∅, []⟩ := by
  refine ⟨rfl, ?_, ?_, ?_, ?_, ?_, ?_, ?_, ?_⟩ <;> simp

theorem scan_run {g : Img} (hg : Rectangular g) :
    ∀ (l2 l1 : List Cell) (st : ScanState), rasterCells g = l1 ++ l2 →
      ScanInv g l1 st →
      ∃ st', List.foldlM scanStep st l2 = .ok st' ∧
        ScanInv g (l1 ++ l2) st' := by
  intro l2
  induction l2 with
  | nil =>
    intro l1 st hsplit hinv
    refine ⟨st, by simp; rfl, ?_⟩
    rw [List.append_nil]
    exact hinv
  | cons c l2 ih =>
    intro l1 st hsplit hinv
    obtain ⟨st1, hstep, hinv1⟩ := scanStep_inv hg hsplit hinv
    rw [List.foldlM_cons, hstep, ok_bind]
    obtain ⟨st', hrun, hinv'⟩ := ih (l1 ++ [c]) st1
      (by rw [hsplit]; simp) hinv1
    refine ⟨st', hrun, ?_⟩
    have heq : (l1 ++ [c]) ++ l2 = l1 ++ c :: l2 := by simp
    exact heq ▸ hinv'

/-- The raster scan of `find_islands` on a rectangular grid completes
without failure and its final state satisfies the full scan invariant
over the whole grid. -/
theorem findIslands_spec {g : Img} (hg : Rectangular g) :
    ∃ st', findIslandsE g = .ok st' ∧ ScanInv g (rasterCells g) st' := by
  obtain ⟨st', h, hinv⟩ := scan_run hg (rasterCells g) [] ⟨g, ∅, []⟩
    (by simp) (scanInv_init g)
  refine ⟨st', h, ?_⟩
  have heq : ([] : List Cell) ++ rasterCells g = rasterCells g := by simp
  exact heq ▸ hinv

/-! ### Path lemmas and auxiliary facts -/

theorem mem_of_headOpt {l : List Cell} {a : Cell} (h : l.head? = some a) :
    a ∈ l := by
  cases l with
  | nil => cases h
  | cons b t =>
    injection h with h2
    rw [← h2]
    exact List.mem_cons_self _ _

theorem ureach_val {g : Img} {pv : ℤ} {a b : Cell} (h : UReach g pv a b)
    (ha : inBounds g a ∧ valD g a = pv) :
    inBounds g b ∧ valD g b = pv := by
  induction h with
  | refl => exact ha
  | tail _ hs _ => exact ⟨hs.2.1, hs.2.2⟩

theorem ureach_symm {g : Img} {pv : ℤ} {a b : Cell} (h : UReach g pv a b)
    (ha : inBounds g a) (hva : valD g a = pv) : UReach g pv b a := by
  induction h with
  | refl => exact Relation.ReflTransGen.refl
  | tail hab hbc ih =>
    have hb' := ureach_val hab ⟨ha, hva⟩
    exact Relation.ReflTransGen.trans
      (Relation.ReflTransGen.single ⟨nbrs_symm hbc.1, hb'.1, hb'.2⟩) ih

/-! ### The only failure mode is an index error

The source contains no validity check and no `raise`; the only way a
call can fail is an out-of-range row access on ragged input.  The
following chain shows every error produced anywhere in the embedding is
`indexError` — in particular `find_islands` never produces the
`InvalidGrid` failure the specification's error-handling section
describes. -/

theorem pure_eq_ok {α : Type} (a : α) : (pure a : Except PyErr α) = .ok a :=
  rfl

theorem getCell_error {g : Img} {x y : ℤ} {e : PyErr}
    (h : getCell g x y = .error e) : e = .indexError := by
  unfold getCell at h
  split at h
  · split at h
    · injection h with h2
      exact h2.symm
    · split at h
      · injection h with h2
        exact h2.symm
      · cases h
  · injection h with h2
    exact h2.symm

theorem neighborStep_error {g : Img} {pv : ℤ} {vis : Finset Cell}
    {c : Cell} {acc : Bool × List Cell} {d : Cell} {e : PyErr}
    (h : neighborStep g pv vis c acc d = .error e) : e = .indexError := by
  unfold neighborStep at h
  by_cases h1 : inBounds g (shift c d)
  · rw [if_pos h1] at h
    by_cases h2 : shift c d ∈ vis
    · rw [if_pos h2] at h
      cases h
    · rw [if_neg h2] at h
      cases hgc : getCell g (shift c d).1 (shift c d).2 with
      | error e2 =>
        rw [hgc, error_bind] at h
        injection h with h3
        rw [← h3]
        exact getCell_error hgc
      | ok v =>
        rw [hgc, ok_bind] at h
        split at h
        · cases h
        · split at h
          · cases h
          · cases h
  · rw [if_neg h1] at h
    cases h

theorem foldNeighbors_error {g : Img} {pv : ℤ} {vis : Finset Cell}
    {c : Cell} :
    ∀ (ds : List Cell) (acc : Bool × List Cell) (e : PyErr),
      List.foldlM (neighborStep g pv vis c) acc ds = .error e →
      e = .indexError := by
  intro ds
  induction ds with
  | nil =>
    intro acc e h
    rw [List.foldlM_nil, pure_eq_ok] at h
    cases h
  | cons d ds ih =>
    intro acc e h
    rw [List.foldlM_cons] at h
    cases hstep : neighborStep g pv vis c acc d with
    | error e2 =>
      rw [hstep, error_bind] at h
      injection h with h3
      rw [← h3]
      exact neighborStep_error hstep
    | ok acc2 =>
      rw [hstep, ok_bind] at h
      exact ih acc2 e h

theorem dfsIter_error {pv : ℤ} {st : DfsState} {e : PyErr}
    (h : dfsIter pv st = .error e) : e = .indexError := by
  cases hstack : st.stack with
  | nil =>
    rw [dfsIter_nil hstack] at h
    cases h
  | cons c rest =>
    by_cases hv : c ∈ st.visited
    · rw [dfsIter_visited hstack hv] at h
      cases h
    · simp only [dfsIter, hstack, if_neg hv] at h
      cases hfold : List.foldlM
          (neighborStep st.image pv (insert c st.visited) c)
          (false, rest) directions with
      | error e2 =>
        rw [hfold, error_bind] at h
        injection h with h3
        rw [← h3]
        exact foldNeighbors_error directions _ e2 hfold
      | ok res =>
        rw [hfold, ok_bind] at h
        cases h

theorem dfsLoop_error {pv : ℤ} :
    ∀ {n : ℕ} {st : DfsState} {e : PyErr},
      dfsLoop pv n st = .error e → e = .indexError := by
  intro n
  induction n with
  | zero =>
    intro st e h
    rw [dfsLoop_zero] at h
    cases h
  | succ n ih =>
    intro st e h
    cases hstack : st.stack with
    | nil =>
      rw [dfsLoop_succ_nil hstack] at h
      cases h
    | cons c rest =>
      rw [dfsLoop_succ_cons hstack] at h
      cases hiter : dfsIter pv st with
      | error e2 =>
        rw [hiter, error_bind] at h
        injection h with h3
        rw [← h3]
        exact dfsIter_error hiter
      | ok st1 =>
        rw [hiter, ok_bind] at h
        exact ih h

theorem dfs_error {g : Img} {c : Cell} {vis : Finset Cell} {e : PyErr}
    (h : dfs g c vis = .error e) : e = .indexError := by
  unfold dfs at h
  cases hgc : getCell g c.1 c.2 with
  | error e2 =>
    rw [hgc, error_bind] at h
    injection h with h3
    rw [← h3]
    exact getCell_error hgc
  | ok pv =>
    rw [hgc, ok_bind] at h
    exact dfsLoop_error h

theorem scanStep_error {st : ScanState} {c : Cell} {e : PyErr}
    (h : scanStep st c = .error e) : e = .indexError := by
  unfold scanStep at h
  by_cases hv : c ∈ st.visited
  · rw [if_pos hv] at h
    cases h
  · rw [if_neg hv] at h
    cases hgc : getCell st.image c.1 c.2 with
    | error e2 =>
      rw [hgc, error_bind] at h
      injection h with h3
      rw [← h3]
      exact getCell_error hgc
    | ok v =>
      rw [hgc, ok_bind] at h
      split at h
      · cases hdfs : dfs st.image c st.visited with
        | error e2 =>
          rw [hdfs, error_bind] at h
          injection h with h3
          rw [← h3]
          exact dfs_error hdfs
        | ok st2 =>
          rw [hdfs, ok_bind] at h
          cases h
      · cases h

theorem scanFold_error :
    ∀ (l : List Cell) (st0 : ScanState) (e : PyErr),
      List.foldlM scanStep st0 l = .error e → e = .indexError := by
  intro l
  induction l with
  | nil =>
    intro st0 e h
    rw [List.foldlM_nil, pure_eq_ok] at h
    cases h
  | cons c l ih =>
    intro st0 e h
    rw [List.foldlM_cons] at h
    cases hstep : scanStep st0 c with
    | error e2 =>
      rw [hstep, error_bind] at h
      injection h with h3
      rw [← h3]
      exact scanStep_error hstep
    | ok st1 =>
      rw [hstep, ok_bind] at h
      exact ih st1 e h

theorem find_islands_error {g : Img} {e : PyErr}
    (h : find_islands g = .error e) : e = .indexError := by
  unfold find_islands findIslandsE at h
  cases hrun : List.foldlM scanStep
      { image := g, visited := ∅, islands := [] } (rasterCells g) with
  | error e2 =>
    rw [hrun] at h
    injection h with h3
    rw [← h3]
    exact scanFold_error (rasterCells g) _ e2 hrun
  | ok st1 =>
    rw [hrun] at h
    cases h

/-! ### Shared consequences of the scan invariant -/

theorem find_islands_eq {g : Img} {st : ScanState}
    (h : findIslandsE g = .ok st) : find_islands g = .ok st.islands := by
  unfold find_islands
  rw [h]
  rfl

theorem union_char {g : Img} {st : ScanState}
    (hinv : ScanInv g (rasterCells g) st) :
    ∀ c, (∃ I ∈ st.islands, c ∈ I.pixels) ↔
      inBounds g c ∧ valD g c < 1 := by
  intro c
  constructor
  · rintro ⟨I, hI, hc⟩
    exact hinv.hvisv c ((hinv.hvis c).mpr ⟨I, hI, hc⟩)
  · rintro ⟨hb, hv⟩
    exact (hinv.hvis c).mp (hinv.hcover c (mem_rasterCells.mpr hb) hb hv)

/-! ### The claims -/

/-- Claim C1, counterexample: on the rectangular 1×1 grid `[[-1]]` the
single returned island contains the cell `(0,0)` whose value is `-1`,
not the foreground value `0` — so for grids with negative entries the
union of the islands' pixels is not the set of cells of value 0 (the
code's test is `value < 1`, which is not equivalent to `value == 0` for
negative integers). -/
theorem C1_counterexample :
    find_islands [[-1]] = .ok [⟨[(0, 0)], [(0, 0)]⟩] ∧
    valD [[-1]] (0, 0) = -1 ∧ rows [[-1]] = 1 ∧ cols [[-1]] = 1 :=
  ⟨rfl, rfl, rfl, rfl⟩

/-- Claim C1, amended: for every rectangular grid, `find_islands`
returns (without failure) a list of islands whose pixel sets are
pairwise disjoint, duplicate-free, and whose union is exactly the set
of in-bounds cells with value `< 1` (equivalently `≤ 0`) — so cells
with value `≥ 1` never appear, and each cell with value `< 1` appears
in exactly one island. -/
theorem C1_partition {g : Img} (hg : Rectangular g) :
    ∃ isl, find_islands g = .ok isl ∧
      (∀ c, (∃ I ∈ isl, c ∈ I.pixels) ↔ inBounds g c ∧ valD g c < 1) ∧
      isl.Pairwise (fun I J => ∀ x ∈ I.pixels, x ∉ J.pixels) ∧
      (∀ I ∈ isl, I.pixels.Nodup) := by
  obtain ⟨st, hrun, hinv⟩ := findIslands_spec hg
  refine ⟨st.islands, find_islands_eq hrun, union_char hinv, hinv.hdisj, ?_⟩
  intro I hI
  exact (hinv.hgood I hI).hnodup

/-- Claim C1, witness for the amended theorem at the grid
`[[0, 5], [5, 0]]`. -/
theorem C1_partition_witness :
    Rectangular [[0, 5], [5, 0]] ∧
    ∃ isl, find_islands [[0, 5], [5, 0]] = .ok isl ∧
      (∀ c, (∃ I ∈ isl, c ∈ I.pixels) ↔
        inBounds [[0, 5], [5, 0]] c ∧ valD [[0, 5], [5, 0]] c < 1) ∧
      isl.Pairwise (fun I J => ∀ x ∈ I.pixels, x ∉ J.pixels) ∧
      (∀ I ∈ isl, I.pixels.Nodup) :=
  ⟨by decide, C1_partition (by decide)⟩

/-- Claim C4, counterexample: the ragged grid `[[0], [0, 0]]` (row
lengths 1 and 2) is processed without any error — `find_islands`
performs no rectangularity check and raises nothing on this ragged
input, refuting "raises InvalidGrid if and only if the rows are not all
of equal length". -/
theorem C4_counterexample :
    ¬ Rectangular [[0], [0, 0]] ∧
    find_islands [[0], [0, 0]] =
      .ok [⟨[(0, 0), (1, 0)], [(0, 0), (1, 0)]⟩] :=
  ⟨by decide, rfl⟩

/-- Claim C4, amended: `find_islands` contains no `InvalidGrid` check
at all: on every rectangular grid it returns normally, and on any input
whatsoever the only possible failure is an index error from a
too-short row (never an `InvalidGrid` failure). -/
theorem C4_no_invalid_grid (g : Img) :
    (Rectangular g → ∃ isl, find_islands g = .ok isl) ∧
    (∀ e, find_islands g = .error e → e = .indexError) := by
  constructor
  · intro hg
    obtain ⟨st, hrun, _⟩ := findIslands_spec hg
    exact ⟨st.islands, find_islands_eq hrun⟩
  · intro e h
    exact find_islands_error h

/-- Claim C4, witness for the amended theorem at the grid `[[0]]`. -/
theorem C4_no_invalid_grid_witness :
    Rectangular [[0]] ∧ ∃ isl, find_islands [[0]] = .ok isl :=
  ⟨by decide, (C4_no_invalid_grid [[0]]).1 (by decide)⟩

/-- Claim C7: every island returned by `find_islands` on a rectangular
grid has a perimeter list contained in its pixel list and a non-empty
pixel list. -/
theorem C7_island_invariant {g : Img} (hg : Rectangular g) :
    ∃ isl, find_islands g = .ok isl ∧
      ∀ I ∈ isl, (∀ x ∈ I.perimeter, x ∈ I.pixels) ∧ I.pixels ≠ [] := by
  obtain ⟨st, hrun, hinv⟩ := findIslands_spec hg
  exact ⟨st.islands, find_islands_eq hrun, fun I hI =>
    ⟨(hinv.hgood I hI).hperim, (hinv.hgood I hI).hne⟩⟩

/-- Claim C7, witness at the grid `[[0]]`. -/
theorem C7_island_invariant_witness :
    Rectangular [[0]] ∧
    ∃ isl, find_islands [[0]] = .ok isl ∧
      ∀ I ∈ isl, (∀ x ∈ I.perimeter, x ∈ I.pixels) ∧ I.pixels ≠ [] :=
  ⟨by decide, C7_island_invariant (by decide)⟩

/-- Claim C8, counterexample: the rectangular 1×1 grid `[[-2]]` has no
cell whose value equals the foreground value 0 (its only cell holds
`-2`), yet `find_islands` returns a non-empty island list, because the
code's foreground test is `value < 1`, not `value == 0`. -/
theorem C8_counterexample :
    rows [[-2]] = 1 ∧ cols [[-2]] = 1 ∧ valD [[-2]] (0, 0) = -2 ∧
    find_islands [[-2]] ≠ .ok [] := by
  refine ⟨rfl, rfl, rfl, ?_⟩
  intro h
  rw [show find_islands [[-2]] = .ok [⟨[(0, 0)], [(0, 0)]⟩] from rfl] at h
  injection h with h2
  cases h2

/-- Claim C8, amended: a 0×0 grid, or more generally any rectangular
grid all of whose cell values are `≥ 1` (no foreground cell in the
sense of the code's `value < 1` test), yields an empty island list. -/
theorem C8_empty {g : Img} (hg : Rectangular g)
    (hbg : ∀ row ∈ g, ∀ v ∈ row, 1 ≤ v) : find_islands g = .ok [] := by
  obtain ⟨st, hrun, hinv⟩ := findIslands_spec hg
  rw [find_islands_eq hrun]
  cases hisl : st.islands with
  | nil => rfl
  | cons I rest =>
    exfalso
    have hI : I ∈ st.islands := by
      rw [hisl]
      exact List.mem_cons_self _ _
    have hgood := hinv.hgood I hI
    have hseedmem : seedOf I ∈ I.pixels := mem_of_headOpt hgood.hhead
    have hv := hgood.hvals (seedOf I) hseedmem
    obtain ⟨row, hrow, hvin⟩ := valD_mem_row hg hv.1
    have hge := hbg row hrow _ hvin
    have hlt := hv.2.2
    omega

/-- Claim C8, witness for the amended theorem at the all-background
grid `[[2, 3], [4, 5]]` (and note a 0×0 grid satisfies both hypotheses
vacuously). -/
theorem C8_empty_witness :
    Rectangular [[2, 3], [4, 5]] ∧
    (∀ row ∈ [[(2 : ℤ), 3], [4, 5]], ∀ v ∈ row, 1 ≤ v) ∧
    find_islands [[2, 3], [4, 5]] = .ok [] :=
  ⟨by decide, by decide, C8_empty (by decide) (by decide)⟩

/-- Claim C9: `find_islands` never mutates its input grid — the grid
stored in the scan state it returns is the input grid unchanged (all
state updates in the embedding copy the image field untouched, matching
the source, which contains no write to `image`). -/
theorem C9_frame {g : Img} (hg : Rectangular g) :
    ∃ st, findIslandsE g = .ok st ∧ st.image = g := by
  obtain ⟨st, hrun, hinv⟩ := findIslands_spec hg
  exact ⟨st, hrun, hinv.himg⟩

/-- Claim C9, witness at the grid `[[0]]`. -/
theorem C9_frame_witness :
    Rectangular [[0]] ∧
    ∃ st, findIslandsE [[0]] = .ok st ∧ st.image = [[0]] :=
  ⟨by decide, C9_frame (by decide)⟩

/-- When the seed value is `< 1` (always the case for a traversal
started by `find_islands`), the code's push rule coincides with the
specification's "same-value unvisited in-bounds neighbour" rule. -/
theorem pushesOf_eq_of_lt {g : Img} {pv : ℤ} (hpv : pv < 1)
    (vis : Finset Cell) (c : Cell) :
    pushesOf g pv vis c = (nbrs c).filter fun n =>
      decide (inBounds g n ∧ n ∉ vis ∧ valD g n = pv) := by
  unfold pushesOf
  apply List.filter_congr
  intro n _
  apply decide_eq_decide.mpr
  constructor
  · rintro ⟨h1, h2, h3, _⟩
    exact ⟨h1, h2, h3⟩
  · rintro ⟨h1, h2, h3⟩
    exact ⟨h1, h2, h3, by omega⟩

/-- Claim C2: when the traversal pops a not-yet-visited cell `c`, it
appends `c` to the island, appends `c` to the perimeter exactly when
some of the four neighbour positions is out of bounds or is in bounds,
unvisited at this moment (i.e. not in `visited ∪ {c}`) and of differing
value or value `≥ 1` (`hasPerim`), and pushes exactly the same-value
unvisited in-bounds neighbours onto the work-list instead of counting
them as boundary evidence. -/
theorem C2_perimeter_rule {g : Img} {pv : ℤ} {st : DfsState} {c : Cell}
    {rest : List Cell} (hg : Rectangular g) (himg : st.image = g)
    (hstack : st.stack = c :: rest) (hv : c ∉ st.visited) (hpv : pv < 1) :
    ∃ st', dfsIter pv st = .ok st' ∧
      st'.island = st.island ++ [c] ∧
      (st'.perimeter = st.perimeter ++ [c] ↔
        hasPerim g pv (insert c st.visited) c) ∧
      (¬ hasPerim g pv (insert c st.visited) c →
        st'.perimeter = st.perimeter) ∧
      st'.stack = ((nbrs c).filter fun n =>
        decide (inBounds g n ∧ n ∉ insert c st.visited ∧
          valD g n = pv)).reverse ++ rest := by
  subst himg
  refine ⟨_, dfsIter_new hg hstack hv, rfl, ?_, ?_, ?_⟩
  · by_cases hcond : hasPerim st.image pv (insert c st.visited) c
    · rw [if_pos hcond]
      exact iff_of_true rfl hcond
    · rw [if_neg hcond]
      constructor
      · intro h
        have hlen := congrArg List.length h
        simp at hlen
      · intro h
        exact absurd h hcond
  · intro hcond
    simp only [if_neg hcond]
  · simp only
    rw [pushesOf_eq_of_lt hpv]

/-- Claim C2, witness: the rule applied to the singleton grid `[[0]]`
with seed `(0, 0)` popped from the initial work-list. -/
theorem C2_perimeter_rule_witness :
    Rectangular [[0]] ∧
    (⟨[[0]], [(0, 0)], ∅, [], []⟩ : DfsState).image = [[0]] ∧
    (⟨[[0]], [(0, 0)], ∅, [], []⟩ : DfsState).stack = [(0, 0)] ∧
    (0, 0) ∉ (⟨[[0]], [(0, 0)], ∅, [], []⟩ : DfsState).visited ∧
    (0 : ℤ) < 1 ∧
    ∃ st', dfsIter 0 ⟨[[0]], [(0, 0)], ∅, [], []⟩ = .ok st' ∧
      st'.island = (⟨[[0]], [(0, 0)], ∅, [], []⟩ : DfsState).island ++
        [(0, 0)] ∧
      (st'.perimeter =
          (⟨[[0]], [(0, 0)], ∅, [], []⟩ : DfsState).perimeter ++ [(0, 0)] ↔
        hasPerim [[0]] 0
          (insert (0, 0) (⟨[[0]], [(0, 0)], ∅, [], []⟩ : DfsState).visited)
          (0, 0)) ∧
      (¬ hasPerim [[0]] 0
          (insert (0, 0) (⟨[[0]], [(0, 0)], ∅, [], []⟩ : DfsState).visited)
          (0, 0) →
        st'.perimeter =
          (⟨[[0]], [(0, 0)], ∅, [], []⟩ : DfsState).perimeter) ∧
      st'.stack = ((nbrs (0, 0)).filter fun n =>
        decide (inBounds [[0]] n ∧
          n ∉ insert (0, 0)
            (⟨[[0]], [(0, 0)], ∅, [], []⟩ : DfsState).visited ∧
          valD [[0]] n = 0)).reverse ++ [] :=
  ⟨by decide, rfl, rfl, by decide, by decide,
    C2_perimeter_rule (by decide) rfl rfl (by decide) (by decide)⟩

/-- Claim C5: on a rectangular grid `find_islands` terminates with a
result, and every work-list loop of `dfs` terminates: starting from any
state whose stack entries are in bounds, fuel `dfsMeasure st` (at most
five steps per cell plus the pending stack) drains the stack, and any
larger fuel gives the same final state — the loop is insensitive to
further fuel, i.e. the unbounded Python loop stops. -/
theorem C5_termination {g : Img} (hg : Rectangular g) :
    (∃ isl, find_islands g = .ok isl) ∧
    ∀ (pv : ℤ) (st : DfsState), st.image = g →
      (∀ x ∈ st.stack, inBounds g x) →
      ∃ st', dfsLoop pv (dfsMeasure st) st = .ok st' ∧ st'.stack = [] ∧
        ∀ m, dfsMeasure st ≤ m → dfsLoop pv m st = .ok st' := by
  constructor
  · obtain ⟨st, hrun, _⟩ := findIslands_spec hg
    exact ⟨st.islands, find_islands_eq hrun⟩
  · intro pv st himg hstk
    subst himg
    obtain ⟨st', hrun, hnil, _⟩ :=
      dfsLoop_drains (dfsMeasure st) st hg hstk (le_refl _)
    exact ⟨st', hrun, hnil, fun m hm => dfsLoop_mono hrun hnil hm⟩

/-- Claim C5, witness at the grid `[[0]]`. -/
theorem C5_termination_witness :
    Rectangular [[0]] ∧
    ((∃ isl, find_islands [[0]] = .ok isl) ∧
    ∀ (pv : ℤ) (st : DfsState), st.image = [[0]] →
      (∀ x ∈ st.stack, inBounds [[0]] x) →
      ∃ st', dfsLoop pv (dfsMeasure st) st = .ok st' ∧ st'.stack = [] ∧
        ∀ m, dfsMeasure st ≤ m → dfsLoop pv m st = .ok st') :=
  ⟨by decide, C5_termination (by decide)⟩

/-- Claim C6: `find_islands` is a function of the grid alone (repeated
invocations agree), each returned island's pixel list starts with its
seed, the seed is the raster-minimum of the island's pixels, and the
islands are listed in strictly increasing raster order of their seeds —
so the Nth island is the one discovered at the Nth foreground
not-yet-visited cell of the raster scan. -/
theorem C6_order {g : Img} (hg : Rectangular g) :
    ∃ isl, find_islands g = .ok isl ∧
      (∀ isl2, find_islands g = .ok isl2 → isl2 = isl) ∧
      (∀ I ∈ isl, I.pixels.head? = some (seedOf I) ∧
        ∀ x ∈ I.pixels, ¬ rlt x (seedOf I)) ∧
      isl.Pairwise fun I J => rlt (seedOf I) (seedOf J) := by
  obtain ⟨st, hrun, hinv⟩ := findIslands_spec hg
  refine ⟨st.islands, find_islands_eq hrun, ?_, ?_, hinv.horder⟩
  · intro isl2 h2
    rw [find_islands_eq hrun] at h2
    injection h2 with h3
    exact h3.symm
  · intro I hI
    exact ⟨(hinv.hgood I hI).hhead, (hinv.hgood I hI).hmin⟩

/-- Claim C6, witness at the grid `[[0, 1], [1, 0]]`. -/
theorem C6_order_witness :
    Rectangular [[0, 1], [1, 0]] ∧
    ∃ isl, find_islands [[0, 1], [1, 0]] = .ok isl ∧
      (∀ isl2, find_islands [[0, 1], [1, 0]] = .ok isl2 → isl2 = isl) ∧
      (∀ I ∈ isl, I.pixels.head? = some (seedOf I) ∧
        ∀ x ∈ I.pixels, ¬ rlt x (seedOf I)) ∧
      isl.Pairwise (fun I J => rlt (seedOf I) (seedOf J)) :=
  ⟨by decide, C6_order (by decide)⟩

/-- Claim C3: on a rectangular grid, two foreground cells (value `< 1`)
lie in the same returned island exactly when they are joined by a path
of 4-adjacent in-bounds cells all carrying the same value as the two
endpoints. -/
theorem C3_component_maximality {g : Img} (hg : Rectangular g) :
    ∃ isl, find_islands g = .ok isl ∧
      ∀ a b : Cell, inBounds g a → valD g a < 1 → inBounds g b →
        valD g b < 1 →
        ((∃ I ∈ isl, a ∈ I.pixels ∧ b ∈ I.pixels) ↔
          (valD g b = valD g a ∧ UReach g (valD g a) a b)) := by
  obtain ⟨st, hrun, hinv⟩ := findIslands_spec hg
  refine ⟨st.islands, find_islands_eq hrun, ?_⟩
  intro a b hba hva hbb hvb
  constructor
  · rintro ⟨I, hI, haI, hbI⟩
    have hgood := hinv.hgood I hI
    have hseedmem := mem_of_headOpt hgood.hhead
    have hsv := hgood.hvals _ hseedmem
    have hav := hgood.hvals a haI
    have hbv := hgood.hvals b hbI
    refine ⟨by rw [hbv.2.1, hav.2.1], ?_⟩
    have h1 : UReach g (valD g (seedOf I)) (seedOf I) a := hgood.hconn a haI
    have h2 : UReach g (valD g (seedOf I)) (seedOf I) b := hgood.hconn b hbI
    have h3 : UReach g (valD g (seedOf I)) a (seedOf I) :=
      ureach_symm h1 hsv.1 rfl
    rw [hav.2.1]
    exact h3.trans h2
  · rintro ⟨hvba, hr⟩
    obtain ⟨I, hI, haI⟩ : ∃ I ∈ st.islands, a ∈ I.pixels :=
      (hinv.hvis a).mp (hinv.hcover a (mem_rasterCells.mpr hba) hba hva)
    have hgood := hinv.hgood I hI
    have hclose : ∀ x, UReach g (valD g a) a x → x ∈ I.pixels := by
      intro x hx
      induction hx with
      | refl => exact haI
      | tail hab hbc ih =>
        obtain ⟨hn, hb2, hv2⟩ := hbc
        apply hgood.hclosed _ ih _ hn hb2
        rw [hv2, (hgood.hvals a haI).2.1, ← (hgood.hvals _ ih).2.1]
    exact ⟨I, hI, haI, hclose b hr⟩

/-- Claim C3, witness at the grid `[[0]]`. -/
theorem C3_component_maximality_witness :
    Rectangular [[0]] ∧
    ∃ isl, find_islands [[0]] = .ok isl ∧
      ∀ a b : Cell, inBounds [[0]] a → valD [[0]] a < 1 →
        inBounds [[0]] b → valD [[0]] b < 1 →
        ((∃ I ∈ isl, a ∈ I.pixels ∧ b ∈ I.pixels) ↔
          (valD [[0]] b = valD [[0]] a ∧ UReach [[0]] (valD [[0]] a) a b)) :=
  ⟨by decide, C3_component_maximality (by decide)⟩

/-- Claim C10: on the rectangular 3×3 grid with a ring of zeros around
a centre cell of value `-1` (both values pass the `value < 1`
foreground test), `find_islands` returns an island with non-empty
pixels and an empty perimeter: by the time the centre is popped all
four of its neighbours are already-visited cells of a different value,
and the perimeter rule inspects only unvisited neighbours. -/
theorem C10_empty_perimeter :
    Rectangular [[0, 0, 0], [0, -1, 0], [0, 0, 0]] ∧
    ∃ isl, find_islands [[0, 0, 0], [0, -1, 0], [0, 0, 0]] = .ok isl ∧
      ∃ I ∈ isl, I.pixels ≠ [] ∧ I.perimeter = [] := by
  refine ⟨by decide,
    [⟨[(0, 0), (0, 1), (0, 2), (1, 2), (2, 2), (2, 1), (2, 0), (1, 0)],
      [(0, 0), (0, 1), (0, 2), (1, 2), (2, 2), (2, 1), (2, 0), (1, 0)]⟩,
     ⟨[(1, 1)], []⟩], rfl, ⟨[(1, 1)], []⟩, ?_, ?_, rfl⟩
  · decide
  · decide
